import Mathlib

/-!
Verification of the boundary-decision core of the `no-cross-internal-imports`
lint rule (Go-style `internal/` import boundaries).

The JavaScript source operates on POSIX path strings with separator `/`.
We model JS strings as Lean `String` values (logically a list of characters)
and give faithful translations of the Node `path` functions the rule uses
(`path.resolve`, `path.dirname`, `path.relative`, `path.isAbsolute`) together
with the rule's own functions (`isSubPath`, `findInternalRoot`,
`findInternalDirectory`, `areInSameInternalDirectory`, `isImportAllowed`,
and the import-declaration handler).

`path.resolve` of a relative path consults the process working directory; the
spec guarantees the rule only ever resolves against absolute bases, so the
working directory is modelled as the filesystem root `/` (for absolute inputs
the model is exact).
-/

namespace GoInternal

/-- One step of splitting a character list at `/` separators: prepend a
character to the first chunk of an already-split remainder. -/
def splitSepCons (c : Char) : List (List Char) → List (List Char)
  | [] => [[c]]
  | s :: ss => (c :: s) :: ss

/-- Models `String.prototype.split('/')` on JS strings (as character lists):
the list of `/`-separated chunks, keeping empty chunks. -/
def splitSep : List Char → List (List Char)
  | [] => [[]]
  | c :: cs => if c = '/' then [] :: splitSep cs else splitSepCons c (splitSep cs)

/-- Models `Array.prototype.join('/')` on chunk lists (as character lists). -/
def joinSep : List (List Char) → List Char
  | [] => []
  | [s] => s
  | s :: s2 :: ss => s ++ '/' :: joinSep (s2 :: ss)

/-- One step of Node `path.resolve` segment normalization: empty and `.`
segments are skipped, `..` pops the last accepted segment (at the root it is
dropped), anything else is accepted. -/
def normStep (acc : List (List Char)) (s : List Char) : List (List Char) :=
  if s = [] ∨ s = ['.'] then acc
  else if s = ['.', '.'] then acc.dropLast
  else acc ++ [s]

/-- Node `path.resolve` segment normalization over a chunk list. -/
def normSegs (l : List (List Char)) : List (List Char) :=
  l.foldl normStep []

/-- The normalized segment sequence of a path string: split at `/`, then
collapse empty, `.` and `..` segments the way `path.resolve` does. -/
def resSegs (p : String) : List (List Char) :=
  normSegs (splitSep p.data)

/-- Models `path.resolve(p)` (POSIX), with the process working directory
modelled as `/`: the normalized absolute form of `p`. -/
def resolvePath (p : String) : String :=
  ⟨'/' :: joinSep (resSegs p)⟩

/-- Models `String.prototype.startsWith`. -/
def jsStartsWith (s pre : String) : Bool :=
  decide (pre.data <+: s.data)

/-- Models `String.prototype.endsWith`. -/
def jsEndsWith (s suf : String) : Bool :=
  decide (suf.data <:+ s.data)

/-- Models `String.prototype.includes` (substring test). -/
def jsIncludes (s sub : String) : Bool :=
  decide (sub.data <:+: s.data)

/-- Models `path.isAbsolute` (POSIX): the path begins with `/`. -/
def jsIsAbsolute (p : String) : Bool :=
  jsStartsWith p "/"

/-- Models Node `path.dirname` (POSIX): scanning from the end, skip trailing
separators, skip the final segment, and cut just before the separator that
precedes it; special cases for root-only and `//`-rooted results. -/
def dirname (p : String) : String :=
  match p.data with
  | [] => "."
  | c0 :: cs =>
    let r := (cs.reverse.dropWhile (fun c => c = '/')).dropWhile (fun c => ¬ c = '/')
    match r with
    | [] => if c0 = '/' then "/" else "."
    | _ :: r3 =>
      if c0 = '/' ∧ r3 = [] then "//"
      else ⟨c0 :: r3.reverse⟩

/-- Segment-level core of Node `path.relative` on two already-normalized
absolute segment sequences: strip the common prefix, then one `..` for each
remaining source segment followed by the remaining target segments. -/
def relSegs : List (List Char) → List (List Char) → List (List Char)
  | [], ts => ts
  | f :: fs, [] => (f :: fs).map fun _ => ['.', '.']
  | f :: fs, t :: ts =>
    if f = t then relSegs fs ts
    else ((f :: fs).map fun _ => ['.', '.']) ++ t :: ts

/-- Models Node `path.relative(f, t)` (POSIX): both arguments are resolved,
equal paths give the empty string, and otherwise the result is the
segment-level relative walk from `f` to `t`. -/
def relativePath (f t : String) : String :=
  if f = t then ""
  else if resolvePath f = resolvePath t then ""
  else ⟨joinSep (relSegs (resSegs f) (resSegs t))⟩

/-- Models `path.resolve(base, p)` for an absolute `base`: an absolute `p`
is resolved on its own, otherwise `p` is resolved against `base`. -/
def jsResolve2 (base p : String) : String :=
  if jsStartsWith p "/" = true then resolvePath p
  else resolvePath ⟨base.data ++ '/' :: p.data⟩

/-- Source `resolveImportPath`: resolves a relative import path against the
directory of the importing file. -/
def resolveImportPath (importPath currentFilePath : String) : String :=
  jsResolve2 (dirname currentFilePath) importPath

/-- The character sequence of the literal segment name `internal`. -/
def internalSeg : List Char := ['i', 'n', 't', 'e', 'r', 'n', 'a', 'l']

/-- The backwards scan of the source (`for i from parts.length-1 down to 0`)
that finds the index of the last chunk equal to `internal`. -/
def lastInternalIdx : List (List Char) → Option Nat
  | [] => none
  | s :: rest =>
    match lastInternalIdx rest with
    | some j => some (j + 1)
    | none => if s = internalSeg then some 0 else none

/-- Source `isSubPath(childPath, parentPath)`: both paths are resolved; equal
paths count as contained, otherwise the relative walk from parent to child
must be nonempty, must not start with `..`, and must not be absolute. -/
def isSubPath (childPath parentPath : String) : Bool :=
  let normalizedChild := resolvePath childPath
  let normalizedParent := resolvePath parentPath
  if normalizedChild = normalizedParent then true
  else
    let relative := relativePath normalizedParent normalizedChild
    ¬ (relative = "") ∧ ¬ jsStartsWith relative ".." = true ∧
      ¬ jsIsAbsolute relative = true

/-- Source `findInternalRoot(importPath)`: resolve, split at `/`, find the
last `internal` chunk, and return the joined prefix strictly before it
(the module root), with the empty join fixed up to the filesystem root. -/
def findInternalRoot (importPath : String) : Option String :=
  let normalizedPath := resolvePath importPath
  let parts := splitSep normalizedPath.data
  match lastInternalIdx parts with
  | none => none
  | some i =>
    let internalRoot : String := ⟨joinSep (parts.take i)⟩
    some (if internalRoot = "" then "/" else internalRoot)

/-- Source `findInternalDirectory(filePath)`: resolve, split at `/`, find the
last `internal` chunk, and return the joined prefix up to and including it. -/
def findInternalDirectory (filePath : String) : Option String :=
  let normalizedPath := resolvePath filePath
  let parts := splitSep normalizedPath.data
  match lastInternalIdx parts with
  | none => none
  | some i => some ⟨joinSep (parts.take (i + 1))⟩

/-- Source `areInSameInternalDirectory(importerPath, importeePath)`: both
governing internal directories exist and are equal. -/
def areInSameInternalDirectory (importerPath importeePath : String) : Bool :=
  match findInternalDirectory importerPath, findInternalDirectory importeePath with
  | some importerInternalDir, some importeeInternalDir =>
    importerInternalDir = importeeInternalDir
  | _, _ => false

/-- Source `isImportAllowed(importerPath, importeePath)` (the plain
root-containment variant): resolve the importee, find the last `internal`
chunk (allow when absent), take the joined prefix strictly before it as the
module root, and allow iff the resolved importer starts with the module root
followed by a separator or equals the module root. -/
def isImportAllowed (importerPath importeePath : String) : Bool :=
  let normalizedImporteePath := resolvePath importeePath
  let parts := splitSep normalizedImporteePath.data
  match lastInternalIdx parts with
  | none => true
  | some i =>
    let moduleRootPath : String := ⟨joinSep (parts.take i)⟩
    let normalizedImporterPath := resolvePath importerPath
    jsStartsWith normalizedImporterPath (moduleRootPath ++ "/") ||
      normalizedImporterPath = moduleRootPath

/-- Reason codes of the boundary verdict (spec §3). -/
inductive Reason where
  | NOT_RELATIVE
  | NO_INTERNAL_SEGMENT
  | SAME_INTERNAL_DIR
  | WITHIN_MODULE_ROOT
  | SUBMODULE_DENIED
  | OUTSIDE_MODULE_ROOT
deriving DecidableEq, Repr

/-- A boundary verdict: whether the import is allowed, and why. -/
structure BoundaryVerdict where
  allowed : Bool
  reason : Reason
deriving DecidableEq, Repr

/-- The fast substring test of the handler: the resolved import path contains
`/internal/` or ends with `/internal`. -/
def hasInternalHint (p : String) : Bool :=
  jsIncludes p "/internal/" || jsEndsWith p "/internal"

/-- The body of the three-check `ImportDeclaration` handler after import-path
resolution, with the spec's reason codes attached to each return: substring
hint test, same-internal-directory fast path, module-root containment via
`isSubPath`, and the submodule-depth restriction. -/
def decideImport (currentFilePath resolvedImportPath : String) : BoundaryVerdict :=
  if ¬ hasInternalHint resolvedImportPath = true then
    ⟨true, .NO_INTERNAL_SEGMENT⟩
  else if areInSameInternalDirectory currentFilePath resolvedImportPath = true then
    ⟨true, .SAME_INTERNAL_DIR⟩
  else
    match findInternalRoot resolvedImportPath with
    | none => ⟨true, .NO_INTERNAL_SEGMENT⟩
    | some internalRoot =>
      let importerPath := dirname currentFilePath
      if ¬ isSubPath importerPath internalRoot = true then
        ⟨false, .OUTSIDE_MODULE_ROOT⟩
      else
        let relPath := relativePath internalRoot importerPath
        if ¬ relPath = "" then
          let parts := (splitSep relPath.data).filter
            fun part => decide (¬ part = [] ∧ ¬ part = ['.'] ∧ ¬ part = ['.', '.'])
          if parts.length > 1 then ⟨false, .SUBMODULE_DENIED⟩
          else ⟨true, .WITHIN_MODULE_ROOT⟩
        else ⟨true, .WITHIN_MODULE_ROOT⟩

/-- The full three-check handler (spec `decide` plus the adapter's
relative-specifier filter): non-relative specifiers are ignored, otherwise
the specifier is resolved against the importer's directory and judged by
`decideImport`. -/
def checkImport (importPath currentFilePath : String) : BoundaryVerdict :=
  if ¬ jsStartsWith importPath "." = true then ⟨true, .NOT_RELATIVE⟩
  else decideImport currentFilePath (resolveImportPath importPath currentFilePath)

/-- The plain variant's `checkImport` as a Boolean (true iff no diagnostic is
reported): relative-specifier filter, resolution, substring hint test, then
`isImportAllowed`. -/
def checkImportAllowedV1 (importPath currentFilePath : String) : Bool :=
  if ¬ jsStartsWith importPath "." = true then true
  else
    let resolvedImportPath := resolveImportPath importPath currentFilePath
    if ¬ hasInternalHint resolvedImportPath = true then true
    else isImportAllowed currentFilePath resolvedImportPath

/-! Lemmas about splitting and joining at the separator. -/

theorem splitSep_ne_nil (L : List Char) : splitSep L ≠ [] := by
  induction L with
  | nil => simp [splitSep]
  | cons c cs ih =>
    simp only [splitSep]
    split
    · simp
    · cases h : splitSep cs with
      | nil => simp [splitSepCons]
      | cons s ss => simp [splitSepCons]

theorem sep_not_mem_splitSep (L : List Char) : ∀ s ∈ splitSep L, '/' ∉ s := by
  induction L with
  | nil =>
    intro s hs
    simp [splitSep] at hs
    simp [hs]
  | cons c cs ih =>
    intro s hs
    simp only [splitSep] at hs
    by_cases hc : c = '/'
    · rw [if_pos hc] at hs
      rcases List.mem_cons.mp hs with h | h
      · simp [h]
      · exact ih s h
    · rw [if_neg hc] at hs
      cases h : splitSep cs with
      | nil => exact absurd h (splitSep_ne_nil cs)
      | cons s0 ss =>
        rw [h, splitSepCons] at hs
        rcases List.mem_cons.mp hs with h1 | h1
        · subst h1
          intro hmem
          rcases List.mem_cons.mp hmem with h2 | h2
          · exact hc h2.symm
          · exact ih s0 (h ▸ List.mem_cons_self s0 ss) h2
        · exact ih s (h ▸ List.mem_cons_of_mem s0 h1)

theorem splitSepCons_append (c : Char) (l m : List (List Char)) (h : l ≠ []) :
    splitSepCons c (l ++ m) = splitSepCons c l ++ m := by
  cases l with
  | nil => exact absurd rfl h
  | cons s ss => simp [splitSepCons]

theorem splitSep_sep_cons (cs : List Char) :
    splitSep ('/' :: cs) = [] :: splitSep cs := by
  rw [splitSep, if_pos rfl]

theorem splitSep_cons_of_ne (c : Char) (cs : List Char) (h : ¬ c = '/') :
    splitSep (c :: cs) = splitSepCons c (splitSep cs) := by
  rw [splitSep, if_neg h]

theorem splitSep_append_sep (A B : List Char) :
    splitSep (A ++ '/' :: B) = splitSep A ++ splitSep B := by
  induction A with
  | nil => simp [splitSep]
  | cons c cs ih =>
    by_cases hc : c = '/'
    · subst hc
      rw [List.cons_append, splitSep_sep_cons, splitSep_sep_cons, ih]
      rfl
    · rw [List.cons_append, splitSep_cons_of_ne c _ hc, splitSep_cons_of_ne c _ hc,
        ih, splitSepCons_append c _ _ (splitSep_ne_nil cs)]

theorem splitSep_no_sep (A : List Char) (h : '/' ∉ A) : splitSep A = [A] := by
  induction A with
  | nil => rfl
  | cons c cs ih =>
    have hc : ¬ c = '/' := fun hcc => h (hcc ▸ List.mem_cons_self c cs)
    have hcs : '/' ∉ cs := fun hm => h (List.mem_cons_of_mem c hm)
    simp [splitSep, if_neg hc, ih hcs, splitSepCons]

theorem joinSep_cons_of_ne (s : List Char) (rest : List (List Char)) (h : rest ≠ []) :
    joinSep (s :: rest) = s ++ '/' :: joinSep rest := by
  cases rest with
  | nil => exact absurd rfl h
  | cons s2 ss => rfl

theorem joinSep_splitSep (L : List Char) : joinSep (splitSep L) = L := by
  induction L with
  | nil => rfl
  | cons c cs ih =>
    by_cases hc : c = '/'
    · subst hc
      rw [splitSep, if_pos rfl,
        joinSep_cons_of_ne [] (splitSep cs) (splitSep_ne_nil cs), ih]
      rfl
    · rw [splitSep, if_neg hc]
      cases h : splitSep cs with
      | nil => exact absurd h (splitSep_ne_nil cs)
      | cons s ss =>
        rw [h] at ih
        rw [splitSepCons]
        cases ss with
        | nil =>
          simp only [joinSep] at ih ⊢
          rw [ih]
        | cons s2 ss2 =>
          rw [joinSep_cons_of_ne (c :: s) (s2 :: ss2) (by simp),
            List.cons_append, ← joinSep_cons_of_ne s (s2 :: ss2) (by simp), ih]

theorem joinSep_append (A B : List (List Char)) (hA : A ≠ []) (hB : B ≠ []) :
    joinSep (A ++ B) = joinSep A ++ '/' :: joinSep B := by
  induction A with
  | nil => exact absurd rfl hA
  | cons a A2 ih =>
    cases A2 with
    | nil =>
      rw [List.singleton_append, joinSep_cons_of_ne a B hB]
      rfl
    | cons a2 A3 =>
      rw [List.cons_append, joinSep_cons_of_ne a ((a2 :: A3) ++ B) (by simp),
        ih (by simp), joinSep_cons_of_ne a (a2 :: A3) (by simp)]
      simp [List.append_assoc]

theorem splitSep_joinSep (l : List (List Char)) (hsep : ∀ s ∈ l, '/' ∉ s)
    (hne : l ≠ []) : splitSep (joinSep l) = l := by
  induction l with
  | nil => exact absurd rfl hne
  | cons s rest ih =>
    cases rest with
    | nil =>
      show splitSep (joinSep [s]) = [s]
      exact splitSep_no_sep s (hsep s (List.mem_cons_self s []))
    | cons s2 ss =>
      rw [joinSep_cons_of_ne s (s2 :: ss) (by simp), splitSep_append_sep,
        splitSep_no_sep s (hsep s (List.mem_cons_self s _)),
        ih (fun t ht => hsep t (List.mem_cons_of_mem s ht)) (by simp)]
      rfl

theorem joinSep_ne_nil (s : List Char) (rest : List (List Char)) (h : s ≠ []) :
    joinSep (s :: rest) ≠ [] := by
  cases rest with
  | nil => simpa [joinSep]
  | cons s2 ss => simp [joinSep_cons_of_ne s (s2 :: ss) (by simp), h]

/-! Lemmas about segment normalization and `resolvePath`. -/

/-- A segment that survives normalization: nonempty, not `.`, not `..`, and
free of the separator. -/
def GoodSeg (s : List Char) : Prop :=
  ¬ s = [] ∧ ¬ s = ['.'] ∧ ¬ s = ['.', '.'] ∧ '/' ∉ s

instance (s : List Char) : Decidable (GoodSeg s) := by
  unfold GoodSeg
  infer_instance

theorem foldl_normStep_clean (l : List (List Char))
    (h : ∀ s ∈ l, ¬ s = [] ∧ ¬ s = ['.'] ∧ ¬ s = ['.', '.']) :
    ∀ acc, l.foldl normStep acc = acc ++ l := by
  induction l with
  | nil => intro acc; simp
  | cons s rest ih =>
    intro acc
    obtain ⟨h1, h2, h3⟩ := h s (List.mem_cons_self s rest)
    have hstep : normStep acc s = acc ++ [s] := by
      rw [normStep, if_neg (by tauto), if_neg h3]
    rw [List.foldl_cons, hstep, ih (fun t ht => h t (List.mem_cons_of_mem s ht))]
    simp

theorem mem_foldl_normStep (l : List (List Char)) :
    ∀ acc s, s ∈ l.foldl normStep acc →
      s ∈ acc ∨ (s ∈ l ∧ ¬ s = [] ∧ ¬ s = ['.'] ∧ ¬ s = ['.', '.']) := by
  induction l with
  | nil => intro acc s hs; exact Or.inl hs
  | cons x rest ih =>
    intro acc s hs
    rw [List.foldl_cons] at hs
    rcases ih (normStep acc x) s hs with h | h
    · rw [normStep] at h
      split at h
      · exact Or.inl h
      · split at h
        · exact Or.inl (List.dropLast_subset acc h)
        · rcases List.mem_append.mp h with h2 | h2
          · exact Or.inl h2
          · rename_i hxe hxdd
            rw [List.mem_singleton] at h2
            subst h2
            exact Or.inr ⟨List.mem_cons_self s rest, by tauto, by tauto, hxdd⟩
    · exact Or.inr ⟨List.mem_cons_of_mem x h.1, h.2⟩

theorem goodSeg_resSegs (p : String) : ∀ s ∈ resSegs p, GoodSeg s := by
  intro s hs
  rcases mem_foldl_normStep (splitSep p.data) [] s hs with h | h
  · simp at h
  · exact ⟨h.2.1, h.2.2.1, h.2.2.2, sep_not_mem_splitSep p.data s h.1⟩

theorem resSegs_mk_join (l : List (List Char)) (h : ∀ s ∈ l, GoodSeg s) :
    resSegs ⟨'/' :: joinSep l⟩ = l := by
  show normSegs (splitSep ('/' :: joinSep l)) = l
  rw [splitSep_sep_cons]
  cases l with
  | nil => rfl
  | cons s rest =>
    rw [splitSep_joinSep (s :: rest) (fun t ht => (h t ht).2.2.2) (by simp)]
    show List.foldl normStep (normStep [] []) (s :: rest) = s :: rest
    rw [show normStep [] [] = [] from rfl,
      foldl_normStep_clean (s :: rest) (fun t ht => ⟨(h t ht).1, (h t ht).2.1, (h t ht).2.2.1⟩) []]
    simp

theorem resSegs_resolvePath (p : String) : resSegs (resolvePath p) = resSegs p :=
  resSegs_mk_join (resSegs p) (goodSeg_resSegs p)

theorem resolvePath_idem (p : String) : resolvePath (resolvePath p) = resolvePath p := by
  show (⟨'/' :: joinSep (resSegs (resolvePath p))⟩ : String) = _
  rw [resSegs_resolvePath]
  rfl

theorem resolvePath_data (p : String) :
    (resolvePath p).data = '/' :: joinSep (resSegs p) := rfl

theorem resolvePath_eq_iff (a b : String) :
    resolvePath a = resolvePath b ↔ resSegs a = resSegs b := by
  constructor
  · intro h
    have h2 : joinSep (resSegs a) = joinSep (resSegs b) := by
      have := congrArg String.data h
      rw [resolvePath_data, resolvePath_data] at this
      exact List.tail_eq_of_cons_eq this
    cases ha : resSegs a with
    | nil =>
      cases hb : resSegs b with
      | nil => rfl
      | cons s rest =>
        rw [ha, hb] at h2
        exact absurd h2.symm
          (joinSep_ne_nil s rest (goodSeg_resSegs b s (hb ▸ List.mem_cons_self s rest)).1)
    | cons s rest =>
      cases hb : resSegs b with
      | nil =>
        rw [ha, hb] at h2
        exact absurd h2
          (joinSep_ne_nil s rest (goodSeg_resSegs a s (ha ▸ List.mem_cons_self s rest)).1)
      | cons t rest2 =>
        have hra := splitSep_joinSep (resSegs a)
          (fun t ht => (goodSeg_resSegs a t ht).2.2.2) (ha ▸ by simp)
        have hrb := splitSep_joinSep (resSegs b)
          (fun t ht => (goodSeg_resSegs b t ht).2.2.2) (hb ▸ by simp)
        rw [← ha, ← hb, ← hra, ← hrb, h2]
  · intro h
    show (⟨'/' :: joinSep (resSegs a)⟩ : String) = ⟨'/' :: joinSep (resSegs b)⟩
    rw [h]

theorem resolvePath_starts_sep (p : String) : jsStartsWith (resolvePath p) "/" = true := by
  rw [jsStartsWith, decide_eq_true_iff]
  show ['/'] <+: (resolvePath p).data
  rw [resolvePath_data]
  exact ⟨joinSep (resSegs p), rfl⟩


/-! Lemmas about the last-internal scan and the substring hint. -/

theorem internalSeg_ne_nil : internalSeg ≠ [] := by decide

theorem sep_not_mem_internalSeg : '/' ∉ internalSeg := by decide

theorem lastInternalIdx_eq_none_iff (L : List (List Char)) :
    lastInternalIdx L = none ↔ internalSeg ∉ L := by
  induction L with
  | nil => simp [lastInternalIdx]
  | cons s rest ih =>
    rw [lastInternalIdx]
    cases h2 : lastInternalIdx rest with
    | some j =>
      have hmem : internalSeg ∈ rest := by
        by_contra hm
        rw [ih.mpr hm] at h2
        exact Option.noConfusion h2
      simp only [List.mem_cons]
      constructor
      · intro hc; exact Option.noConfusion hc
      · intro hc; exact absurd (Or.inr hmem) hc
    | none =>
      have hrest : internalSeg ∉ rest := ih.mp h2
      by_cases hs : s = internalSeg
      · rw [if_pos hs]
        simp only [List.mem_cons]
        constructor
        · intro hc; exact Option.noConfusion hc
        · intro hc; exact absurd (Or.inl hs.symm) hc
      · rw [if_neg hs]
        simp only [List.mem_cons]
        constructor
        · intro _ hc
          rcases hc with h3 | h3
          · exact hs h3.symm
          · exact hrest h3
        · intro _
          trivial

theorem lastInternalIdx_append (A B : List (List Char)) (h : internalSeg ∉ B) :
    lastInternalIdx (A ++ internalSeg :: B) = some A.length := by
  induction A with
  | nil =>
    rw [List.nil_append, lastInternalIdx, (lastInternalIdx_eq_none_iff B).mpr h]
    show (if internalSeg = internalSeg then some 0 else none) = some 0
    rw [if_pos rfl]
  | cons a A2 ih =>
    rw [List.cons_append, lastInternalIdx, ih]
    rfl

theorem lastInternalIdx_eq_some (L : List (List Char)) (i : Nat)
    (h : lastInternalIdx L = some i) :
    ∃ A B, L = A ++ internalSeg :: B ∧ A.length = i ∧ internalSeg ∉ B := by
  induction L generalizing i with
  | nil => simp [lastInternalIdx] at h
  | cons s rest ih =>
    cases h2 : lastInternalIdx rest with
    | some j =>
      have h3 : some (j + 1) = some i := by
        rw [lastInternalIdx, h2] at h
        exact h
      simp only [Option.some.injEq] at h3
      obtain ⟨A, B, hL, hlen, hB⟩ := ih j h2
      exact ⟨s :: A, B, by rw [hL]; rfl, by simp [hlen, ← h3], hB⟩
    | none =>
      have h3 : (if s = internalSeg then some 0 else none) = some i := by
        rw [lastInternalIdx, h2] at h
        exact h
      split at h3
      · rename_i hs
        simp only [Option.some.injEq] at h3
        exact ⟨[], rest, by rw [hs]; rfl, by simpa using h3,
          (lastInternalIdx_eq_none_iff rest).mp h2⟩
      · exact absurd h3 (by simp)

theorem splitSep_resolvePath (p : String) (h : resSegs p ≠ []) :
    splitSep (resolvePath p).data = [] :: resSegs p := by
  rw [resolvePath_data, splitSep_sep_cons,
    splitSep_joinSep (resSegs p) (fun t ht => (goodSeg_resSegs p t ht).2.2.2) h]

theorem splitSep_resolvePath_nil (p : String) (h : resSegs p = []) :
    splitSep (resolvePath p).data = [[], []] := by
  rw [resolvePath_data, h]
  rfl

theorem lastInternalIdx_resolvePath_eq_none_iff (p : String) :
    lastInternalIdx (splitSep (resolvePath p).data) = none ↔
      internalSeg ∉ resSegs p := by
  cases hs : resSegs p with
  | nil =>
    rw [splitSep_resolvePath_nil p hs]
    rw [show lastInternalIdx [[], []] = none from by decide]
    simp
  | cons s rest =>
    rw [splitSep_resolvePath p (by rw [hs]; simp), hs, lastInternalIdx_eq_none_iff]
    simp [List.mem_cons, internalSeg_ne_nil]

theorem findInternalRoot_eq_none_iff (p : String) :
    findInternalRoot p = none ↔ internalSeg ∉ resSegs p := by
  rw [← lastInternalIdx_resolvePath_eq_none_iff]
  simp only [findInternalRoot]
  cases lastInternalIdx (splitSep (resolvePath p).data) <;> simp

theorem findInternalDirectory_eq_none_iff (p : String) :
    findInternalDirectory p = none ↔ internalSeg ∉ resSegs p := by
  rw [← lastInternalIdx_resolvePath_eq_none_iff]
  simp only [findInternalDirectory]
  cases lastInternalIdx (splitSep (resolvePath p).data) <;> simp

theorem hasInternalHint_iff (p : String) :
    hasInternalHint p = true ↔
      (('/' :: (internalSeg ++ ['/'])) <:+: p.data ∨
        ('/' :: internalSeg) <:+ p.data) := by
  rw [hasInternalHint, Bool.or_eq_true, jsIncludes, jsEndsWith, decide_eq_true_iff,
    decide_eq_true_iff,
    show ("/internal/" : String).data = '/' :: (internalSeg ++ ['/']) from rfl,
    show ("/internal" : String).data = '/' :: internalSeg from rfl]

theorem hint_of_join (A B : List (List Char)) :
    hasInternalHint ⟨'/' :: joinSep (A ++ internalSeg :: B)⟩ = true := by
  rw [hasInternalHint_iff]
  show ('/' :: (internalSeg ++ ['/'])) <:+: ('/' :: joinSep (A ++ internalSeg :: B)) ∨
    ('/' :: internalSeg) <:+ ('/' :: joinSep (A ++ internalSeg :: B))
  cases A with
  | nil =>
    cases B with
    | nil =>
      right
      show ∃ t, t ++ '/' :: internalSeg = '/' :: joinSep [internalSeg]
      exact ⟨[], rfl⟩
    | cons b B2 =>
      left
      refine ⟨[], joinSep (b :: B2), ?_⟩
      simp only [List.nil_append]
      rw [joinSep_cons_of_ne internalSeg (b :: B2) (by simp)]
      simp [List.append_assoc]
  | cons a A2 =>
    cases B with
    | nil =>
      right
      refine ⟨'/' :: joinSep (a :: A2), ?_⟩
      rw [joinSep_append (a :: A2) [internalSeg] (by simp) (by simp)]
      show '/' :: joinSep (a :: A2) ++ '/' :: internalSeg =
        '/' :: (joinSep (a :: A2) ++ '/' :: joinSep [internalSeg])
      simp [joinSep]
    | cons b B2 =>
      left
      refine ⟨'/' :: joinSep (a :: A2), joinSep (b :: B2), ?_⟩
      rw [joinSep_append (a :: A2) (internalSeg :: b :: B2) (by simp) (by simp),
        joinSep_cons_of_ne internalSeg (b :: B2) (by simp)]
      simp [List.append_assoc]

theorem internal_mem_of_hint (l : List (List Char)) (hsep : ∀ s ∈ l, '/' ∉ s)
    (h : hasInternalHint ⟨'/' :: joinSep l⟩ = true) : internalSeg ∈ l := by
  rw [hasInternalHint_iff] at h
  cases l with
  | nil =>
    rcases h with h | h
    · have hlen := h.length_le
      simp [internalSeg, joinSep] at hlen
    · have hlen := h.length_le
      simp [internalSeg, joinSep] at hlen
  | cons s rest =>
    have hround : splitSep (joinSep (s :: rest)) = s :: rest :=
      splitSep_joinSep (s :: rest) hsep (by simp)
    rcases h with h | h
    · obtain ⟨u, v, huv⟩ := h
      have h2 : splitSep (u ++ '/' :: (internalSeg ++ '/' :: v)) =
          splitSep ('/' :: joinSep (s :: rest)) := by
        rw [show u ++ '/' :: (internalSeg ++ '/' :: v) =
          u ++ ('/' :: (internalSeg ++ ['/'])) ++ v by simp [List.append_assoc], huv]
      rw [splitSep_append_sep, splitSep_append_sep,
        splitSep_no_sep internalSeg sep_not_mem_internalSeg, splitSep_sep_cons,
        hround] at h2
      have hmem : internalSeg ∈ ([] : List Char) :: s :: rest := by
        rw [← h2]
        simp
      rcases List.mem_cons.mp hmem with h3 | h3
      · exact absurd h3 internalSeg_ne_nil
      · exact h3
    · obtain ⟨u, hu⟩ := h
      have h2 : splitSep (u ++ '/' :: internalSeg) =
          splitSep ('/' :: joinSep (s :: rest)) := by rw [hu]
      rw [splitSep_append_sep, splitSep_no_sep internalSeg sep_not_mem_internalSeg,
        splitSep_sep_cons, hround] at h2
      have hmem : internalSeg ∈ ([] : List Char) :: s :: rest := by
        rw [← h2]
        simp
      rcases List.mem_cons.mp hmem with h3 | h3
      · exact absurd h3 internalSeg_ne_nil
      · exact h3

theorem hint_of_mem (p : String) (habs : jsStartsWith p "/" = true)
    (hmem : internalSeg ∈ resSegs p) : hasInternalHint p = true := by
  have hchunk : internalSeg ∈ splitSep p.data := by
    rcases mem_foldl_normStep (splitSep p.data) [] internalSeg hmem with h | h
    · simp at h
    · exact h.1
  rw [jsStartsWith, decide_eq_true_iff] at habs
  obtain ⟨q, hq⟩ : ∃ q, p.data = '/' :: q := by
    obtain ⟨t, ht⟩ := habs
    exact ⟨t, by rw [← ht]; rfl⟩
  have hq2 : internalSeg ∈ splitSep q := by
    rw [hq, splitSep_sep_cons] at hchunk
    rcases List.mem_cons.mp hchunk with h | h
    · exact absurd h internalSeg_ne_nil
    · exact h
  obtain ⟨A, B, hAB⟩ := List.append_of_mem hq2
  have hqj : q = joinSep (A ++ internalSeg :: B) := by
    conv_lhs => rw [← joinSep_splitSep q, hAB]
  have hp : p = ⟨'/' :: joinSep (A ++ internalSeg :: B)⟩ :=
    String.ext (by rw [hq, hqj])
  rw [hp]
  exact hint_of_join A B

theorem hint_resolvePath_iff (p : String) :
    hasInternalHint (resolvePath p) = true ↔ internalSeg ∈ resSegs p := by
  constructor
  · intro h
    exact internal_mem_of_hint (resSegs p)
      (fun s hs => (goodSeg_resSegs p s hs).2.2.2) h
  · intro h
    exact hint_of_mem (resolvePath p) (resolvePath_starts_sep p)
      (by rw [resSegs_resolvePath]; exact h)

/-! Characterization of `findInternalRoot` and `findInternalDirectory`. -/

theorem joinSep_inj (l m : List (List Char)) (hl : ∀ s ∈ l, '/' ∉ s)
    (hm : ∀ s ∈ m, '/' ∉ s) (hln : l ≠ []) (hmn : m ≠ [])
    (h : joinSep l = joinSep m) : l = m := by
  rw [← splitSep_joinSep l hl hln, ← splitSep_joinSep m hm hmn, h]

theorem findInternalRoot_eq_root (p : String) (A B : List (List Char))
    (hseg : resSegs p = A ++ internalSeg :: B) (hB : internalSeg ∉ B) :
    findInternalRoot p = some (if A = [] then "/" else ⟨'/' :: joinSep A⟩) := by
  have hne : resSegs p ≠ [] := by rw [hseg]; simp
  have hsplit : splitSep (resolvePath p).data = ([] :: A) ++ internalSeg :: B := by
    rw [splitSep_resolvePath p hne, hseg]
    rfl
  have hidx : lastInternalIdx (splitSep (resolvePath p).data) = some (A.length + 1) := by
    rw [hsplit, lastInternalIdx_append ([] :: A) B hB]
    rfl
  simp only [findInternalRoot]
  rw [hidx, hsplit]
  show some (if (⟨joinSep ((([] :: A) ++ internalSeg :: B).take (A.length + 1))⟩ : String) = ""
      then "/" else ⟨joinSep ((([] :: A) ++ internalSeg :: B).take (A.length + 1))⟩) =
    some (if A = [] then "/" else ⟨'/' :: joinSep A⟩)
  rw [show (([] :: A) ++ internalSeg :: B).take (A.length + 1) = [] :: A from by
    have h2 := List.take_left ([] :: A) (internalSeg :: B)
    simp only [List.length_cons] at h2
    exact h2]
  cases A with
  | nil =>
    rw [show joinSep [([] : List Char)] = [] from rfl,
      if_pos (show (⟨[]⟩ : String) = "" from rfl), if_pos rfl]
  | cons a A2 =>
    rw [show joinSep ([] :: a :: A2) = '/' :: joinSep (a :: A2) from by
      rw [joinSep_cons_of_ne [] (a :: A2) (by simp)]
      rfl]
    rw [if_neg (show ¬ (⟨'/' :: joinSep (a :: A2)⟩ : String) = "" from
        fun hc => List.noConfusion (congrArg String.data hc)),
      if_neg (show ¬ (a :: A2) = [] from by simp)]

theorem findInternalDirectory_eq_dir (p : String) (A B : List (List Char))
    (hseg : resSegs p = A ++ internalSeg :: B) (hB : internalSeg ∉ B) :
    findInternalDirectory p = some ⟨'/' :: joinSep (A ++ [internalSeg])⟩ := by
  have hne : resSegs p ≠ [] := by rw [hseg]; simp
  have hsplit : splitSep (resolvePath p).data = ([] :: A) ++ internalSeg :: B := by
    rw [splitSep_resolvePath p hne, hseg]
    rfl
  have hidx : lastInternalIdx (splitSep (resolvePath p).data) = some (A.length + 1) := by
    rw [hsplit, lastInternalIdx_append ([] :: A) B hB]
    rfl
  simp only [findInternalDirectory]
  rw [hidx, hsplit]
  show some (⟨joinSep ((([] :: A) ++ internalSeg :: B).take (A.length + 1 + 1))⟩ : String) =
    some ⟨'/' :: joinSep (A ++ [internalSeg])⟩
  rw [show (([] :: A) ++ internalSeg :: B).take (A.length + 1 + 1) =
      [] :: (A ++ [internalSeg]) from by
    have h2 : (([] :: A) ++ internalSeg :: B).take (([] :: A).length + 1) =
        ([] :: A) ++ (internalSeg :: B).take 1 := List.take_append 1
    simp only [List.length_cons] at h2
    rw [h2]
    rfl]
  rw [show joinSep ([] :: (A ++ [internalSeg])) = '/' :: joinSep (A ++ [internalSeg]) from by
    rw [joinSep_cons_of_ne [] (A ++ [internalSeg]) (by simp)]
    rfl]

theorem findInternalRoot_some_decomp (p root : String)
    (h : findInternalRoot p = some root) :
    ∃ A B, resSegs p = A ++ internalSeg :: B ∧ internalSeg ∉ B ∧
      root = (if A = [] then "/" else ⟨'/' :: joinSep A⟩) := by
  have hmem : internalSeg ∈ resSegs p := by
    by_contra hm
    rw [(findInternalRoot_eq_none_iff p).mpr hm] at h
    exact Option.noConfusion h
  cases hidx : lastInternalIdx (resSegs p) with
  | none => exact absurd hmem ((lastInternalIdx_eq_none_iff _).mp hidx)
  | some i =>
    obtain ⟨A, B, hseg, _, hB⟩ := lastInternalIdx_eq_some _ i hidx
    refine ⟨A, B, hseg, hB, ?_⟩
    have h2 := findInternalRoot_eq_root p A B hseg hB
    rw [h] at h2
    exact Option.some.inj h2

theorem findInternalDirectory_some_decomp (p d : String)
    (h : findInternalDirectory p = some d) :
    ∃ A B, resSegs p = A ++ internalSeg :: B ∧ internalSeg ∉ B ∧
      d = ⟨'/' :: joinSep (A ++ [internalSeg])⟩ := by
  have hmem : internalSeg ∈ resSegs p := by
    by_contra hm
    rw [(findInternalDirectory_eq_none_iff p).mpr hm] at h
    exact Option.noConfusion h
  cases hidx : lastInternalIdx (resSegs p) with
  | none => exact absurd hmem ((lastInternalIdx_eq_none_iff _).mp hidx)
  | some i =>
    obtain ⟨A, B, hseg, _, hB⟩ := lastInternalIdx_eq_some _ i hidx
    refine ⟨A, B, hseg, hB, ?_⟩
    have h2 := findInternalDirectory_eq_dir p A B hseg hB
    rw [h] at h2
    exact Option.some.inj h2

theorem resolvePath_mk_join (l : List (List Char)) (h : ∀ s ∈ l, GoodSeg s) :
    resolvePath ⟨'/' :: joinSep l⟩ = ⟨'/' :: joinSep l⟩ := by
  show (⟨'/' :: joinSep (resSegs ⟨'/' :: joinSep l⟩)⟩ : String) = _
  rw [resSegs_mk_join l h]

/-! Lemmas about `dirname` on normalized absolute paths. -/

theorem dropWhile_cons_of_neg {α : Type} (P : α → Bool) (a : α) (l : List α)
    (h : ¬ P a = true) : (a :: l).dropWhile P = a :: l := by
  rw [List.dropWhile_cons, if_neg h]

theorem dropWhile_eq_nil_of_all {α : Type} (P : α → Bool) (l : List α)
    (h : ∀ c ∈ l, P c = true) : l.dropWhile P = [] := by
  induction l with
  | nil => rfl
  | cons a rest ih =>
    rw [List.dropWhile_cons, if_pos (h a (List.mem_cons_self a rest))]
    exact ih fun c hc => h c (List.mem_cons_of_mem a hc)

theorem dropWhile_append_of_all {α : Type} (P : α → Bool) (xs ys : List α)
    (h : ∀ c ∈ xs, P c = true) : (xs ++ ys).dropWhile P = ys.dropWhile P := by
  induction xs with
  | nil => rfl
  | cons a rest ih =>
    rw [List.cons_append, List.dropWhile_cons, if_pos (h a (List.mem_cons_self a rest))]
    exact ih fun c hc => h c (List.mem_cons_of_mem a hc)

theorem dirname_mk_join (l : List (List Char)) (h : ∀ s ∈ l, GoodSeg s) :
    dirname ⟨'/' :: joinSep l⟩ = ⟨'/' :: joinSep l.dropLast⟩ := by
  rcases List.eq_nil_or_concat l with hl | ⟨A, x, hl⟩
  · subst hl
    decide
  · rw [List.concat_eq_append] at hl
    subst hl
    have hxg : GoodSeg x := h x (by simp)
    obtain ⟨c, cr, hx⟩ : ∃ c cr, x.reverse = c :: cr := by
      cases hxr : x.reverse with
      | nil =>
        refine absurd ?_ hxg.1
        have h2 := congrArg List.reverse hxr
        simpa using h2
      | cons c cr => exact ⟨c, cr, rfl⟩
    have hcx : ∀ y ∈ x.reverse, ¬ y = '/' := fun y hy hc =>
      hxg.2.2.2 (hc ▸ List.mem_reverse.mp hy)
    rw [List.dropLast_concat]
    cases A with
    | nil =>
      simp only [List.nil_append]
      show (match (x.reverse.dropWhile fun c => decide (c = '/')).dropWhile
          (fun c => decide (¬ c = '/')) with
        | [] => if ('/' : Char) = '/' then "/" else "."
        | _ :: r3 => if ('/' : Char) = '/' ∧ r3 = [] then "//" else ⟨'/' :: r3.reverse⟩)
        = ⟨'/' :: joinSep []⟩
      rw [show (x.reverse.dropWhile fun c => decide (c = '/')) = x.reverse from by
        rw [hx]
        exact dropWhile_cons_of_neg _ c cr (by
          simpa using hcx c (by rw [hx]; exact List.mem_cons_self c cr))]
      rw [dropWhile_eq_nil_of_all _ x.reverse (fun y hy => by simpa using hcx y hy)]
      rfl
    | cons a A2 =>
      have hAne : joinSep (a :: A2) ≠ [] :=
        joinSep_ne_nil a A2 (h a (by simp)).1
      have hjoin : joinSep ((a :: A2) ++ [x]) = joinSep (a :: A2) ++ '/' :: x := by
        rw [joinSep_append (a :: A2) [x] (by simp) (by simp)]
        rfl
      rw [hjoin]
      show (match ((joinSep (a :: A2) ++ '/' :: x).reverse.dropWhile
          fun c => decide (c = '/')).dropWhile (fun c => decide (¬ c = '/')) with
        | [] => if ('/' : Char) = '/' then "/" else "."
        | _ :: r3 => if ('/' : Char) = '/' ∧ r3 = [] then "//" else ⟨'/' :: r3.reverse⟩)
        = ⟨'/' :: joinSep (a :: A2)⟩
      have hrev : (joinSep (a :: A2) ++ '/' :: x).reverse =
          x.reverse ++ '/' :: (joinSep (a :: A2)).reverse := by
        rw [List.reverse_append (joinSep (a :: A2)) ('/' :: x), List.reverse_cons,
          List.append_assoc]
        rfl
      rw [hrev]
      rw [show ((x.reverse ++ '/' :: (joinSep (a :: A2)).reverse).dropWhile
          fun c => decide (c = '/')) = x.reverse ++ '/' :: (joinSep (a :: A2)).reverse from by
        rw [hx, List.cons_append]
        exact dropWhile_cons_of_neg _ c _ (by
          simpa using hcx c (by rw [hx]; exact List.mem_cons_self c cr))]
      rw [dropWhile_append_of_all _ x.reverse _ (fun y hy => by
        simpa using hcx y hy)]
      rw [dropWhile_cons_of_neg (fun c => decide (¬ c = '/')) '/'
        ((joinSep (a :: A2)).reverse) (by simp)]
      have hr3 : ¬ ((joinSep (a :: A2)).reverse = []) := fun hc => by
        refine hAne ?_
        have h2 := congrArg List.reverse hc
        simpa using h2
      show (if ('/' : Char) = '/' ∧ (joinSep (a :: A2)).reverse = [] then "//"
        else ⟨'/' :: (joinSep (a :: A2)).reverse.reverse⟩) = ⟨'/' :: joinSep (a :: A2)⟩
      rw [if_neg (fun hc => hr3 hc.2), List.reverse_reverse]

/-! Lemmas about the relative walk and `isSubPath`. -/

theorem relSegs_of_initial (A B : List (List Char)) : relSegs A (A ++ B) = B := by
  induction A with
  | nil => rfl
  | cons f fs ih =>
    show relSegs (f :: fs) (f :: (fs ++ B)) = B
    rw [relSegs, if_pos rfl]
    exact ih

theorem relSegs_eq_nil_iff (A B : List (List Char)) : relSegs A B = [] ↔ A = B := by
  induction A generalizing B with
  | nil => cases B <;> simp [relSegs, eq_comm]
  | cons f fs ih =>
    cases B with
    | nil => simp [relSegs]
    | cons t ts =>
      rw [relSegs]
      by_cases hft : f = t
      · rw [if_pos hft, ih]
        constructor
        · intro he
          rw [hft, he]
        · intro he
          injection he with h1 h2
      · rw [if_neg hft]
        constructor
        · intro hc
          exact absurd hc (by simp)
        · intro he
          injection he with h1 h2
          exact absurd h1 hft

theorem mem_relSegs (A B : List (List Char)) :
    ∀ s ∈ relSegs A B, s = ['.', '.'] ∨ s ∈ B := by
  induction A generalizing B with
  | nil => exact fun s hs => Or.inr hs
  | cons f fs ih =>
    intro s hs
    cases B with
    | nil =>
      rw [relSegs] at hs
      rcases List.mem_map.mp hs with ⟨y, _, hy⟩
      exact Or.inl hy.symm
    | cons t ts =>
      rw [relSegs] at hs
      by_cases hft : f = t
      · rw [if_pos hft] at hs
        rcases ih ts s hs with h | h
        · exact Or.inl h
        · exact Or.inr (List.mem_cons_of_mem t h)
      · rw [if_neg hft] at hs
        rcases List.mem_append.mp hs with h | h
        · rcases List.mem_map.mp h with ⟨y, _, hy⟩
          exact Or.inl hy.symm
        · exact Or.inr h

theorem dotdot_of_not_initial (A B : List (List Char)) (h : ¬ A <+: B) :
    ['.', '.'] <+: joinSep (relSegs A B) := by
  induction A generalizing B with
  | nil => exact absurd ⟨B, rfl⟩ h
  | cons f fs ih =>
    cases B with
    | nil =>
      rw [relSegs, List.map_cons]
      cases hm : fs.map (fun _ => (['.', '.'] : List Char)) with
      | nil =>
        exact List.prefix_refl _
      | cons y ys =>
        rw [joinSep_cons_of_ne _ _ (by simp)]
        exact List.prefix_append _ _
    | cons t ts =>
      by_cases hft : f = t
      · subst hft
        have h2 : ¬ fs <+: ts := fun hc => h (List.cons_prefix_cons.mpr ⟨rfl, hc⟩)
        rw [relSegs, if_pos rfl]
        exact ih ts h2
      · rw [relSegs, if_neg hft, List.map_cons, List.cons_append,
          joinSep_cons_of_ne _ _ (by simp)]
        exact List.prefix_append _ _

theorem mk_eq_empty_iff (l : List Char) : ((⟨l⟩ : String) = "") ↔ l = [] := by
  constructor
  · intro h
    exact congrArg String.data h
  · intro h
    rw [h]

theorem relativePath_resolved (p c : String) (h : ¬ resolvePath p = resolvePath c) :
    relativePath (resolvePath p) (resolvePath c) =
      ⟨joinSep (relSegs (resSegs p) (resSegs c))⟩ := by
  rw [relativePath, if_neg h, if_neg (fun hc => h (by
      rw [resolvePath_idem, resolvePath_idem] at hc
      exact hc)),
    resSegs_resolvePath, resSegs_resolvePath]

theorem relWalk_conditions (ps cs : List (List Char)) (hne : ¬ ps = cs)
    (hcs : ∀ s ∈ cs, GoodSeg s) :
    ((¬ (⟨joinSep (relSegs ps cs)⟩ : String) = "" ∧
      ¬ jsStartsWith ⟨joinSep (relSegs ps cs)⟩ ".." = true ∧
      ¬ jsIsAbsolute ⟨joinSep (relSegs ps cs)⟩ = true) ↔
      (ps <+: cs ∧ ¬ ['.', '.'] <+: joinSep (cs.drop ps.length))) := by
  obtain ⟨r, R2, hR⟩ : ∃ r R2, relSegs ps cs = r :: R2 := by
    cases hR : relSegs ps cs with
    | nil => exact absurd ((relSegs_eq_nil_iff ps cs).mp hR) hne
    | cons r R2 => exact ⟨r, R2, rfl⟩
  have hrmem := mem_relSegs ps cs r (hR ▸ List.mem_cons_self r R2)
  have hrne : r ≠ [] := by
    rcases hrmem with h | h
    · rw [h]
      simp
    · exact (hcs r h).1
  have hjne : joinSep (relSegs ps cs) ≠ [] := by
    rw [hR]
    exact joinSep_ne_nil r R2 hrne
  obtain ⟨rc, rr, hr⟩ : ∃ rc rr, r = rc :: rr := by
    cases r with
    | nil => exact absurd rfl hrne
    | cons rc rr => exact ⟨rc, rr, rfl⟩
  obtain ⟨X, hX⟩ : ∃ X, joinSep (r :: R2) = rc :: X := by
    cases R2 with
    | nil =>
      refine ⟨rr, ?_⟩
      rw [show joinSep [r] = r from rfl, hr]
    | cons y ys =>
      refine ⟨rr ++ '/' :: joinSep (y :: ys), ?_⟩
      rw [joinSep_cons_of_ne r (y :: ys) (by simp), hr]
      rfl
  have hrcne : ¬ rc = '/' := by
    rcases hrmem with h | h
    · rw [h] at hr
      injection hr with h1 h2
      rw [← h1]
      decide
    · intro hc3
      exact (hcs r h).2.2.2 (by rw [hr, hc3]; exact List.mem_cons_self _ _)
  have habs : ¬ jsIsAbsolute ⟨joinSep (relSegs ps cs)⟩ = true := by
    rw [jsIsAbsolute, jsStartsWith, decide_eq_true_iff]
    intro hc
    have hc2 : (['/'] : List Char) <+: joinSep (relSegs ps cs) := hc
    rw [hR, hX] at hc2
    rcases hc2 with ⟨t, ht⟩
    injection ht with h1 h2
    exact hrcne h1.symm
  have hdots : (jsStartsWith ⟨joinSep (relSegs ps cs)⟩ ".." = true) ↔
      ['.', '.'] <+: joinSep (relSegs ps cs) := by
    rw [jsStartsWith, decide_eq_true_iff]
  by_cases hpre : ps <+: cs
  · obtain ⟨rest, hrest⟩ := hpre
    have hRrest : relSegs ps cs = rest := by
      rw [← hrest]
      exact relSegs_of_initial ps rest
    have hdrop : cs.drop ps.length = rest := by
      rw [← hrest]
      exact List.drop_left ps rest
    constructor
    · rintro ⟨h1, h2, h3⟩
      refine ⟨⟨rest, hrest⟩, ?_⟩
      rw [hdrop, ← hRrest]
      exact fun hc => h2 (hdots.mpr hc)
    · rintro ⟨h1, h2⟩
      refine ⟨?_, ?_, habs⟩
      · rw [mk_eq_empty_iff]
        exact hjne
      · rw [hdots, hRrest, ← hdrop]
        exact h2
  · constructor
    · rintro ⟨h1, h2, h3⟩
      exact absurd (hdots.mpr (dotdot_of_not_initial ps cs hpre)) h2
    · rintro ⟨h1, h2⟩
      exact absurd h1 hpre

theorem isSubPath_iff (c p : String) :
    isSubPath c p = true ↔
      (resSegs p = resSegs c ∨
        (resSegs p <+: resSegs c ∧
          ¬ ['.', '.'] <+: joinSep ((resSegs c).drop (resSegs p).length))) := by
  simp only [isSubPath]
  by_cases heq : resolvePath c = resolvePath p
  · rw [if_pos heq]
    have hseg : resSegs p = resSegs c := ((resolvePath_eq_iff c p).mp heq).symm
    simp [hseg]
  · rw [if_neg heq]
    have hne : ¬ resSegs p = resSegs c :=
      fun hc => heq ((resolvePath_eq_iff c p).mpr hc.symm)
    rw [relativePath_resolved p c (fun hc => heq hc.symm), decide_eq_true_iff]
    rw [relWalk_conditions (resSegs p) (resSegs c) hne (goodSeg_resSegs c)]
    constructor
    · intro h
      exact Or.inr h
    · intro h
      rcases h with h | h
      · exact absurd h hne
      · exact h

/-! Lemmas about the decision pipeline. -/

theorem hint_of_root_some (p root : String) (habs : jsStartsWith p "/" = true)
    (h : findInternalRoot p = some root) : hasInternalHint p = true := by
  obtain ⟨A, B, hseg, hB, _⟩ := findInternalRoot_some_decomp p root h
  exact hint_of_mem p habs (by rw [hseg]; simp)

theorem hint_of_dir_some (p d : String) (habs : jsStartsWith p "/" = true)
    (h : findInternalDirectory p = some d) : hasInternalHint p = true := by
  obtain ⟨A, B, hseg, hB, _⟩ := findInternalDirectory_some_decomp p d h
  exact hint_of_mem p habs (by rw [hseg]; simp)

theorem decideImport_root_branch (cur resolved root : String)
    (hhint : hasInternalHint resolved = true)
    (hsame : ¬ areInSameInternalDirectory cur resolved = true)
    (hroot : findInternalRoot resolved = some root) :
    decideImport cur resolved =
      (if ¬ isSubPath (dirname cur) root = true then
        (⟨false, Reason.OUTSIDE_MODULE_ROOT⟩ : BoundaryVerdict)
      else
        let relPath := relativePath root (dirname cur)
        if ¬ relPath = "" then
          let parts := (splitSep relPath.data).filter
            fun part => decide (¬ part = [] ∧ ¬ part = ['.'] ∧ ¬ part = ['.', '.'])
          if parts.length > 1 then ⟨false, Reason.SUBMODULE_DENIED⟩
          else ⟨true, Reason.WITHIN_MODULE_ROOT⟩
        else ⟨true, Reason.WITHIN_MODULE_ROOT⟩) := by
  rw [decideImport, if_neg (fun hc => hc hhint), if_neg hsame, hroot]

theorem isImportAllowed_eq_check (importer importee : String) (A B : List (List Char))
    (hseg : resSegs importee = A ++ internalSeg :: B) (hB : internalSeg ∉ B) :
    isImportAllowed importer importee =
      (jsStartsWith (resolvePath importer) ((⟨joinSep ([] :: A)⟩ : String) ++ "/") ||
        decide (resolvePath importer = ⟨joinSep ([] :: A)⟩)) := by
  have hne : resSegs importee ≠ [] := by rw [hseg]; simp
  have hsplit : splitSep (resolvePath importee).data = ([] :: A) ++ internalSeg :: B := by
    rw [splitSep_resolvePath importee hne, hseg]
    rfl
  have hidx : lastInternalIdx (splitSep (resolvePath importee).data) = some (A.length + 1) := by
    rw [hsplit, lastInternalIdx_append ([] :: A) B hB]
    rfl
  simp only [isImportAllowed]
  rw [hidx, hsplit]
  show (jsStartsWith (resolvePath importer)
      ((⟨joinSep ((([] :: A) ++ internalSeg :: B).take (A.length + 1))⟩ : String) ++ "/") ||
    decide (resolvePath importer =
      ⟨joinSep ((([] :: A) ++ internalSeg :: B).take (A.length + 1))⟩)) = _
  rw [show (([] :: A) ++ internalSeg :: B).take (A.length + 1) = [] :: A from by
    have h2 := List.take_left ([] :: A) (internalSeg :: B)
    simp only [List.length_cons] at h2
    exact h2]

theorem plain_root_check (q : String) (A R : List (List Char))
    (hq : resSegs q = A ++ R) :
    (jsStartsWith (resolvePath q) ((⟨joinSep ([] :: A)⟩ : String) ++ "/") ||
      decide (resolvePath q = ⟨joinSep ([] :: A)⟩)) = true := by
  rw [Bool.or_eq_true]
  cases A with
  | nil =>
    left
    rw [jsStartsWith, decide_eq_true_iff]
    show ((⟨joinSep [([] : List Char)]⟩ : String) ++ "/").data <+: (resolvePath q).data
    rw [String.data_append, resolvePath_data]
    exact ⟨joinSep (resSegs q), rfl⟩
  | cons a A2 =>
    cases R with
    | nil =>
      right
      rw [decide_eq_true_iff]
      have hq2 : resSegs q = a :: A2 := by rw [hq, List.append_nil]
      show (⟨'/' :: joinSep (resSegs q)⟩ : String) = ⟨joinSep ([] :: a :: A2)⟩
      rw [hq2, joinSep_cons_of_ne [] (a :: A2) (by simp)]
      rfl
    | cons r rs =>
      left
      rw [jsStartsWith, decide_eq_true_iff]
      show ((⟨joinSep ([] :: a :: A2)⟩ : String) ++ "/").data <+: (resolvePath q).data
      rw [String.data_append, resolvePath_data, hq,
        joinSep_cons_of_ne [] (a :: A2) (by simp),
        joinSep_append (a :: A2) (r :: rs) (by simp) (by simp)]
      refine ⟨joinSep (r :: rs), ?_⟩
      show ('/' :: ((joinSep (a :: A2) ++ ['/']) ++ joinSep (r :: rs)) : List Char) =
        '/' :: (joinSep (a :: A2) ++ '/' :: joinSep (r :: rs))
      simp [List.append_assoc]

theorem resolveImportPath_is_resolved (p cur : String) :
    ∃ q, resolveImportPath p cur = resolvePath q := by
  rw [resolveImportPath, jsResolve2]
  by_cases h : jsStartsWith p "/" = true
  · rw [if_pos h]
    exact ⟨p, rfl⟩
  · rw [if_neg h]
    exact ⟨_, rfl⟩

theorem areInSame_some_some (a b : String) (h : areInSameInternalDirectory a b = true) :
    ∃ d, findInternalDirectory a = some d ∧ findInternalDirectory b = some d := by
  rw [areInSameInternalDirectory] at h
  cases h1 : findInternalDirectory a with
  | none =>
    rw [h1] at h
    cases h2 : findInternalDirectory b with
    | none =>
      rw [h2] at h
      exact absurd h (by simp)
    | some y =>
      rw [h2] at h
      exact absurd h (by simp)
  | some x =>
    rw [h1] at h
    cases h2 : findInternalDirectory b with
    | none =>
      rw [h2] at h
      exact absurd h (by simp)
    | some y =>
      rw [h2] at h
      have h3 : x = y := of_decide_eq_true h
      exact ⟨x, rfl, by rw [h3]⟩

/-! Claim theorems. -/

/-- C1: for an absolute importee path governed by an `internal` segment, when
the same-internal fast path does not apply and the importer's directory is
inside the module root, the verdict is determined by the number of filtered
relative segments from the root to the importer's directory: at most one
segment allows with `WITHIN_MODULE_ROOT`, more than one denies with
`SUBMODULE_DENIED`. -/
theorem c1_submodule_depth_cutoff (cur resolved root : String)
    (habs : jsStartsWith resolved "/" = true)
    (hroot : findInternalRoot resolved = some root)
    (hsame : areInSameInternalDirectory cur resolved = false)
    (hsub : isSubPath (dirname cur) root = true) :
    decideImport cur resolved =
      (if ((splitSep (relativePath root (dirname cur)).data).filter
          (fun part => decide (¬ part = [] ∧ ¬ part = ['.'] ∧ ¬ part = ['.', '.']))).length > 1
        then ⟨false, Reason.SUBMODULE_DENIED⟩
        else ⟨true, Reason.WITHIN_MODULE_ROOT⟩) := by
  rw [decideImport_root_branch cur resolved root
      (hint_of_root_some resolved root habs hroot) (by simp [hsame]) hroot,
    if_neg (by simp [hsub])]
  by_cases hrel : relativePath root (dirname cur) = ""
  · rw [if_neg (fun hc => hc hrel), hrel]
    rfl
  · rw [if_pos hrel]

/-- C1 witness: an importer two directory levels below the module root is
denied with `SUBMODULE_DENIED`. -/
theorem c1_witness :
    decideImport "/m/sub/deep/file.js" "/m/internal/x.js" =
      ⟨false, Reason.SUBMODULE_DENIED⟩ := by
  have h := c1_submodule_depth_cutoff "/m/sub/deep/file.js" "/m/internal/x.js" "/m"
    (by decide) (by decide) (by decide) (by decide)
  exact h.trans (by decide)

/-- C2: when the governing internal directories of importer and importee are
both defined and identical, the decision is `allowed` with reason
`SAME_INTERNAL_DIR`, regardless of nesting depth. -/
theorem c2_same_internal_dir_fast_path (cur resolved d : String)
    (habs : jsStartsWith resolved "/" = true)
    (h1 : findInternalDirectory cur = some d)
    (h2 : findInternalDirectory resolved = some d) :
    decideImport cur resolved = ⟨true, Reason.SAME_INTERNAL_DIR⟩ := by
  have hhint : hasInternalHint resolved = true := hint_of_dir_some resolved d habs h2
  have hsame : areInSameInternalDirectory cur resolved = true := by
    rw [areInSameInternalDirectory, h1, h2]
    simp
  rw [decideImport, if_neg (fun hc => hc hhint), if_pos hsame]

/-- C2 witness: two files nested at different depths inside the same internal
directory import freely. -/
theorem c2_witness :
    decideImport "/apps/rb/src/modules/cubejs/internal/dtos/get-sales.dto.js"
      "/apps/rb/src/modules/cubejs/internal/enums/cube-details.js" =
      ⟨true, Reason.SAME_INTERNAL_DIR⟩ :=
  c2_same_internal_dir_fast_path _ _ "/apps/rb/src/modules/cubejs/internal"
    (by decide) (by decide) (by decide)

/-- C3: when the importee is governed by an `internal` segment, the
same-internal fast path does not apply, and the module root is not an
ancestor of (or equal to) the importer's directory, the decision is denied
with reason `OUTSIDE_MODULE_ROOT`. -/
theorem c3_outside_module_root (cur resolved root : String)
    (habs : jsStartsWith resolved "/" = true)
    (hroot : findInternalRoot resolved = some root)
    (hsame : areInSameInternalDirectory cur resolved = false)
    (hsub : isSubPath (dirname cur) root = false) :
    decideImport cur resolved = ⟨false, Reason.OUTSIDE_MODULE_ROOT⟩ := by
  rw [decideImport_root_branch cur resolved root
      (hint_of_root_some resolved root habs hroot) (by simp [hsame]) hroot,
    if_pos (by simp [hsub])]

/-- C3 witness: an importer in a sibling module cannot reach another module's
internal directory. -/
theorem c3_witness :
    decideImport "/shop/handlers/order.js" "/payment/internal/service.js" =
      ⟨false, Reason.OUTSIDE_MODULE_ROOT⟩ :=
  c3_outside_module_root _ _ "/payment" (by decide) (by decide) (by decide) (by decide)

/-- C4: when the importee's resolved path contains no segment literally named
`internal`, the decision is `allowed` with reason `NO_INTERNAL_SEGMENT` for
every importer, so the rule never reports a diagnostic. -/
theorem c4_no_internal_segment (cur p : String)
    (h : internalSeg ∉ resSegs p) :
    decideImport cur p = ⟨true, Reason.NO_INTERNAL_SEGMENT⟩ := by
  by_cases hhint : hasInternalHint p = true
  · have hdir : findInternalDirectory p = none := (findInternalDirectory_eq_none_iff p).mpr h
    have hroot : findInternalRoot p = none := (findInternalRoot_eq_none_iff p).mpr h
    have hsame : areInSameInternalDirectory cur p = false := by
      rw [areInSameInternalDirectory, hdir]
      cases findInternalDirectory cur <;> rfl
    rw [decideImport, if_neg (fun hc => hc hhint), if_neg (by simp [hsame]), hroot]
  · rw [decideImport, if_pos hhint]

/-- C4 witness: an import with no `internal` segment anywhere is allowed. -/
theorem c4_witness :
    decideImport "/mymodule/src/a.js" "/mymodule/src/utils.js" =
      ⟨true, Reason.NO_INTERNAL_SEGMENT⟩ :=
  c4_no_internal_segment _ _ (by decide)

/-- C5: the governing internal directory is determined by the last `internal`
segment only, and the module root is the prefix strictly before that segment:
for resolved segments `s ++ internal :: t` with no `internal` in `t`, the
module root joins exactly `s` and the internal directory joins
`s ++ [internal]`. -/
theorem c5_last_internal_governs (p : String) (s t : List (List Char))
    (hseg : resSegs p = s ++ internalSeg :: t) (ht : internalSeg ∉ t) :
    findInternalRoot p = some (if s = [] then "/" else ⟨'/' :: joinSep s⟩) ∧
    findInternalDirectory p = some ⟨'/' :: joinSep (s ++ [internalSeg])⟩ :=
  ⟨findInternalRoot_eq_root p s t hseg ht, findInternalDirectory_eq_dir p s t hseg ht⟩

/-- C5 witness: for `/m/a/internal/b/internal/c` the module root is
`/m/a/internal/b` (the last `internal` governs), not `/m`. -/
theorem c5_witness :
    findInternalRoot "/m/a/internal/b/internal/c" = some "/m/a/internal/b" ∧
    findInternalDirectory "/m/a/internal/b/internal/c" =
      some "/m/a/internal/b/internal" := by
  have h := c5_last_internal_governs "/m/a/internal/b/internal/c"
    [['m'], ['a'], internalSeg, ['b']] [['c']] (by decide) (by decide)
  exact ⟨h.1.trans (by decide), h.2.trans (by decide)⟩

/-- C6 counterexample: the claimed equivalence (`isSubPath` true iff equal or
segment-sequence prefix) fails at child `/a/..b`, parent `/a`: the segments
of `/a` are a prefix of those of `/a/..b`, yet `isSubPath` returns false
because the relative walk `..b` textually starts with `..`. -/
theorem c6_counterexample :
    ¬ (isSubPath "/a/..b" "/a" = true ↔
      (resolvePath "/a/..b" = resolvePath "/a" ∨
        resSegs "/a" <+: resSegs "/a/..b")) := by
  decide

/-- C6 amended: `isSubPath child parent` is true iff the resolved paths are
equal, or the parent's segment sequence is a prefix of the child's and the
remaining relative walk does not textually start with two dots. -/
theorem c6_is_sub_path_amended (c p : String) :
    isSubPath c p = true ↔
      (resolvePath c = resolvePath p ∨
        (resSegs p <+: resSegs c ∧
          ¬ ['.', '.'] <+: joinSep ((resSegs c).drop (resSegs p).length))) := by
  rw [isSubPath_iff c p, resolvePath_eq_iff]
  constructor
  · rintro (h | h)
    · exact Or.inl h.symm
    · exact Or.inr h
  · rintro (h | h)
    · exact Or.inl h.symm
    · exact Or.inr h

/-- C8: on a normalized absolute importee path, the fast substring test
(`/internal/` infix or `/internal` suffix) succeeds exactly when the
per-segment scan finds a segment literally equal to `internal`, so the early
return never changes the verdict. -/
theorem c8_hint_matches_segment_scan (p : String) :
    hasInternalHint (resolvePath p) = true ↔
      findInternalDirectory (resolvePath p) ≠ none := by
  rw [hint_resolvePath_iff]
  constructor
  · intro h hc
    exact (findInternalDirectory_eq_none_iff (resolvePath p)).mp hc
      (by rw [resSegs_resolvePath]; exact h)
  · intro h
    by_contra hm
    exact h ((findInternalDirectory_eq_none_iff (resolvePath p)).mpr
      (by rw [resSegs_resolvePath]; exact hm))

/-- C9: resolving an import path against a base file is idempotent: resolving
the already-resolved result again yields the same path. -/
theorem c9_resolve_idempotent (p cur : String) :
    resolveImportPath (resolveImportPath p cur) cur = resolveImportPath p cur := by
  obtain ⟨q, hq⟩ := resolveImportPath_is_resolved p cur
  rw [hq, resolveImportPath, jsResolve2, if_pos (resolvePath_starts_sep q),
    resolvePath_idem]

/-- C10: an import specifier that does not begin with `.` is never regulated:
the handler returns `allowed` with reason `NOT_RELATIVE` for every importer. -/
theorem c10_not_relative (importPath cur : String)
    (h : ¬ jsStartsWith importPath "." = true) :
    checkImport importPath cur = ⟨true, Reason.NOT_RELATIVE⟩ := by
  rw [checkImport, if_pos h]

/-- C10 witness: a bare package specifier is ignored. -/
theorem c10_witness :
    checkImport "lodash" "/mymodule/src/component.js" =
      ⟨true, Reason.NOT_RELATIVE⟩ :=
  c10_not_relative "lodash" "/mymodule/src/component.js" (by decide)

/-- C7: for a normalized absolute importer file path, whenever the three-check
handler allows an import, the plain root-containment variant also allows it:
the refinement only adds denials. -/
theorem c7_three_check_subsumes_plain (importPath cur : String)
    (hn : resolvePath cur = cur)
    (hallow : (checkImport importPath cur).allowed = true) :
    checkImportAllowedV1 importPath cur = true := by
  rw [checkImport] at hallow
  rw [checkImportAllowedV1]
  by_cases hrel2 : jsStartsWith importPath "." = true
  case neg => rw [if_pos hrel2]
  case pos =>
    rw [if_neg (fun hc => hc hrel2)]
    rw [if_neg (fun hc => hc hrel2)] at hallow
    by_cases hhint : hasInternalHint (resolveImportPath importPath cur) = true
    case neg => rw [if_pos hhint]
    case pos =>
      rw [if_neg (fun hc => hc hhint)]
      have hcurgood := goodSeg_resSegs cur
      have hcur : cur = ⟨'/' :: joinSep (resSegs cur)⟩ := by
        conv_lhs => rw [← hn]
        rfl
      by_cases hsame : areInSameInternalDirectory cur (resolveImportPath importPath cur) = true
      case pos =>
        obtain ⟨d, h1, h2⟩ := areInSame_some_some cur (resolveImportPath importPath cur) hsame
        obtain ⟨A1, B1, hseg1, hB1, hd1⟩ := findInternalDirectory_some_decomp cur d h1
        obtain ⟨A2, B2, hseg2, hB2, hd2⟩ :=
          findInternalDirectory_some_decomp (resolveImportPath importPath cur) d h2
        have hA : A1 = A2 := by
          have h3 := congrArg String.data (hd1.symm.trans hd2)
          injection h3 with h4 h5
          have hsl1 : ∀ s ∈ A1 ++ [internalSeg], '/' ∉ s := by
            intro s hs
            rcases List.mem_append.mp hs with hs2 | hs2
            · refine (goodSeg_resSegs cur s ?_).2.2.2
              rw [hseg1]
              exact List.mem_append_left _ hs2
            · rw [List.mem_singleton] at hs2
              rw [hs2]
              exact sep_not_mem_internalSeg
          have hsl2 : ∀ s ∈ A2 ++ [internalSeg], '/' ∉ s := by
            intro s hs
            rcases List.mem_append.mp hs with hs2 | hs2
            · refine (goodSeg_resSegs (resolveImportPath importPath cur) s ?_).2.2.2
              rw [hseg2]
              exact List.mem_append_left _ hs2
            · rw [List.mem_singleton] at hs2
              rw [hs2]
              exact sep_not_mem_internalSeg
          exact List.append_cancel_right
            (joinSep_inj _ _ hsl1 hsl2 (by simp) (by simp) h5)
        rw [hA] at hseg1
        rw [isImportAllowed_eq_check cur (resolveImportPath importPath cur) A2 B2 hseg2 hB2]
        exact plain_root_check cur A2 (internalSeg :: B1) hseg1
      case neg =>
        cases hroot : findInternalRoot (resolveImportPath importPath cur) with
        | none =>
          have hnomem : internalSeg ∉ resSegs (resolveImportPath importPath cur) :=
            (findInternalRoot_eq_none_iff _).mp hroot
          have hidxnone := (lastInternalIdx_resolvePath_eq_none_iff
            (resolveImportPath importPath cur)).mpr hnomem
          simp only [isImportAllowed]
          rw [hidxnone]
        | some root =>
          by_cases hsub : isSubPath (dirname cur) root = true
          case neg =>
            rw [decideImport_root_branch cur (resolveImportPath importPath cur) root
              hhint hsame hroot, if_pos hsub] at hallow
            simp at hallow
          case pos =>
            obtain ⟨A, B, hseg, hB, hrootval⟩ :=
              findInternalRoot_some_decomp (resolveImportPath importPath cur) root hroot
            rw [isImportAllowed_eq_check cur (resolveImportPath importPath cur) A B hseg hB]
            cases A with
            | nil => exact plain_root_check cur [] (resSegs cur) rfl
            | cons a A2 =>
              have hgood : ∀ s ∈ a :: A2, GoodSeg s := fun s hs =>
                goodSeg_resSegs (resolveImportPath importPath cur) s
                  (by rw [hseg]; exact List.mem_append.mpr (Or.inl hs))
              have hrootv2 : root = ⟨'/' :: joinSep (a :: A2)⟩ := by
                rw [hrootval, if_neg (by simp)]
              have hrsegs : resSegs root = a :: A2 := by
                rw [hrootv2]
                exact resSegs_mk_join (a :: A2) hgood
              have hdir := dirname_mk_join (resSegs cur) hcurgood
              rw [← hcur] at hdir
              have hdirsegs : resSegs (dirname cur) = (resSegs cur).dropLast := by
                rw [hdir]
                exact resSegs_mk_join _ (fun s hs => hcurgood s (List.dropLast_subset _ hs))
              have hpre : (a :: A2) <+: (resSegs cur).dropLast := by
                rw [← hdirsegs]
                rcases (isSubPath_iff (dirname cur) root).mp hsub with h | h
                · rw [← h, hrsegs]
                · rw [hrsegs] at h
                  exact h.1
              have hpre2 : (a :: A2) <+: resSegs cur := by
                rcases List.eq_nil_or_concat (resSegs cur) with hnil | ⟨L, x, hLx⟩
                · rw [hnil] at hpre
                  obtain ⟨t, ht⟩ := hpre
                  exact absurd ht (by simp)
                · rw [List.concat_eq_append] at hLx
                  have hdl : (resSegs cur).dropLast = L := by
                    rw [hLx, List.dropLast_concat]
                  rw [hdl] at hpre
                  rw [hLx]
                  exact hpre.trans (List.prefix_append L [x])
              obtain ⟨rest, hrest⟩ := hpre2
              exact plain_root_check cur (a :: A2) rest hrest.symm

/-- C7 witness: a concrete allowed import under the three-check handler is
also allowed by the plain variant. -/
theorem c7_witness :
    checkImportAllowedV1 "./internal/utils" "/mymodule/src/component.js" = true :=
  c7_three_check_subsumes_plain "./internal/utils" "/mymodule/src/component.js"
    (by decide) (by decide)

end GoInternal
